import Mathlib

/-!
Verification development for the SuperflexPy-style hydrological engine used by
`src/examples/notebooks/08_GR4J.ipynb`.  The notebook only calls the engine
(`PegasusPython`, `ImplicitEulerPython`, `Splitter`, `UnitHydrograph1`,
`ProductionStore`, `Unit`, ...); the engine's own code is not part of the
sources, so every definition below is modelled from the specification's
description of those components.  Numbers are modelled as exact rationals `ℚ`
(the spec's "within numerical tolerance" becomes an explicit tolerance bound).
-/

/-- Modelled from the spec: the error taxonomy of section 7
(`NonConvergence`, `BoundsViolation`, `InvalidParameter`, `InvalidTopology`). -/
inductive Err where
  | NonConvergence
  | BoundsViolation
  | InvalidParameter
  | InvalidTopology
deriving DecidableEq, Repr

/-- Modelled from the spec: the RootFinder configuration (tolerance, maximum
iterations, bounded number of bracket expansions); the concrete
`PegasusPython` class is missing from the sources. -/
structure PegasusConfig where
  tol : ℚ
  maxIter : ℕ
  maxExpand : ℕ
deriving DecidableEq, Repr

/-- Modelled from the spec: outward probing when the two initial guesses do not
bracket a root; the bracket is widened a bounded number of times and the search
fails explicitly when no sign change is found. -/
def expandBracket (f : ℚ → ℚ) : ℕ → ℚ → ℚ → Option (ℚ × ℚ)
  | 0, _, _ => none
  | n + 1, a, b =>
      if f a * f b ≤ 0 then some (a, b)
      else expandBracket f n (a - (b - a)) (b + (b - a))

/-- Modelled from the spec: the Pegasus iteration, a bracketing secant-type
method.  Each round interpolates a new candidate by the secant through the
bracket endpoints, accepts it when its residual is below tolerance, and
otherwise keeps a bracket, down-weighting the stale endpoint's residual when
the sign did not change.  The fuel argument is the configured maximum
iteration count, so the loop always terminates. -/
def pegasusLoop (f : ℚ → ℚ) (tol : ℚ) : ℕ → ℚ → ℚ → ℚ → ℚ → Except Err ℚ
  | 0, _, _, _, _ => Except.error Err.NonConvergence
  | n + 1, x0, x1, f0, f1 =>
      let x2 := x1 - f1 * (x1 - x0) / (f1 - f0)
      let f2 := f x2
      if |f2| < tol then Except.ok x2
      else if f2 * f1 < 0 then pegasusLoop f tol n x1 x2 f1 f2
      else pegasusLoop f tol n x0 x2 (f0 * f1 / (f1 + f2)) f2

/-- Modelled from the spec: the RootFinder entry point (`PegasusPython`).
Given a scalar residual `f` and two initial guesses it first secures a
bracket (expanding outward a bounded number of times), returns an endpoint
already below tolerance, and otherwise runs the Pegasus iteration under the
configured maximum iteration count. -/
def pegasus (cfg : PegasusConfig) (f : ℚ → ℚ) (a b : ℚ) : Except Err ℚ :=
  match expandBracket f cfg.maxExpand a b with
  | none => Except.error Err.NonConvergence
  | some (a1, b1) =>
      if |f a1| < cfg.tol then Except.ok a1
      else if |f b1| < cfg.tol then Except.ok b1
      else pegasusLoop f cfg.tol cfg.maxIter a1 b1 (f a1) (f b1)

/-- Default-style configuration used for the concrete instances below. -/
def cfg0 : PegasusConfig := { tol := 1 / 1000000, maxIter := 100, maxExpand := 10 }

theorem pegasusLoop_ok (f : ℚ → ℚ) (tol : ℚ) :
    ∀ (n : ℕ) (x0 x1 f0 f1 S : ℚ),
      pegasusLoop f tol n x0 x1 f0 f1 = Except.ok S → |f S| < tol := by
  intro n
  induction n with
  | zero => intro x0 x1 f0 f1 S h; exact absurd h (by simp [pegasusLoop])
  | succ n ih =>
      intro x0 x1 f0 f1 S h
      rw [pegasusLoop] at h
      by_cases h2 : |f (x1 - f1 * (x1 - x0) / (f1 - f0))| < tol
      · simp only [h2, if_true] at h
        cases h
        exact h2
      · simp only [h2, if_false] at h
        split at h
        · exact ih _ _ _ _ _ h
        · exact ih _ _ _ _ _ h

theorem pegasus_ok (cfg : PegasusConfig) (f : ℚ → ℚ) (a b S : ℚ)
    (h : pegasus cfg f a b = Except.ok S) : |f S| < cfg.tol := by
  rw [pegasus] at h
  rcases hb : expandBracket f cfg.maxExpand a b with _ | ⟨a1, b1⟩
  · rw [hb] at h; cases h
  · rw [hb] at h
    by_cases h1 : |f a1| < cfg.tol
    · simp only [h1, if_true] at h; cases h; exact h1
    · simp only [h1, if_false] at h
      by_cases h2 : |f b1| < cfg.tol
      · simp only [h2, if_true] at h; cases h; exact h2
      · simp only [h2, if_false] at h
        exact pegasusLoop_ok f cfg.tol _ _ _ _ _ _ h

theorem pegasusLoop_err (f : ℚ → ℚ) (tol : ℚ) :
    ∀ (n : ℕ) (x0 x1 f0 f1 : ℚ) (e : Err),
      pegasusLoop f tol n x0 x1 f0 f1 = Except.error e → e = Err.NonConvergence := by
  intro n
  induction n with
  | zero =>
      intro x0 x1 f0 f1 e h
      rw [pegasusLoop] at h
      cases h
      rfl
  | succ n ih =>
      intro x0 x1 f0 f1 e h
      rw [pegasusLoop] at h
      split at h
      · cases h
      · split at h
        · exact ih _ _ _ _ _ h
        · exact ih _ _ _ _ _ h

theorem pegasus_err (cfg : PegasusConfig) (f : ℚ → ℚ) (a b : ℚ) (e : Err)
    (h : pegasus cfg f a b = Except.error e) : e = Err.NonConvergence := by
  rw [pegasus] at h
  rcases hb : expandBracket f cfg.maxExpand a b with _ | ⟨a1, b1⟩ <;> simp only [hb] at h
  · cases h; rfl
  · split at h
    · cases h
    · split at h
      · cases h
      · exact pegasusLoop_err f cfg.tol _ _ _ _ _ _ h

theorem expandBracket_found (f : ℚ → ℚ) (n : ℕ) (a b : ℚ) (h : f a * f b ≤ 0) :
    expandBracket f (n + 1) a b = some (a, b) := by
  rw [expandBracket, if_pos h]

theorem expandBracket_expand (f : ℚ → ℚ) (n : ℕ) (a b : ℚ) (h : ¬ f a * f b ≤ 0) :
    expandBracket f (n + 1) a b = expandBracket f n (a - (b - a)) (b + (b - a)) := by
  rw [expandBracket, if_neg h]

theorem pegasus_toLoop (cfg : PegasusConfig) (f : ℚ → ℚ) (a b a1 b1 : ℚ)
    (hb : expandBracket f cfg.maxExpand a b = some (a1, b1))
    (h1 : ¬ |f a1| < cfg.tol) (h2 : ¬ |f b1| < cfg.tol) :
    pegasus cfg f a b = pegasusLoop f cfg.tol cfg.maxIter a1 b1 (f a1) (f b1) := by
  rw [pegasus]
  simp only [hb]
  rw [if_neg h1, if_neg h2]

theorem pegasusLoop_hit (f : ℚ → ℚ) (tol : ℚ) (n : ℕ) (x0 x1 f0 f1 : ℚ)
    (h : |f (x1 - f1 * (x1 - x0) / (f1 - f0))| < tol) :
    pegasusLoop f tol (n + 1) x0 x1 f0 f1 = Except.ok (x1 - f1 * (x1 - x0) / (f1 - f0)) := by
  rw [pegasusLoop]
  simp only [h, if_true]

/-- Claim C2: the root finder either returns a value whose residual is below the
configured tolerance or fails with `NonConvergence`; being a total function
over a fuel bound it can neither loop forever nor produce a silent `NaN`
(there is no `NaN` in `ℚ`, and every run ends in one of the two listed
outcomes).  For the analytic residual `x - 2` with unique root `2` inside the
bracket `[0, 5]` it returns exactly `2`, which is within tolerance of the
root, well under the configured iteration budget. -/
theorem rootfinder_contract :
    (∀ (cfg : PegasusConfig) (f : ℚ → ℚ) (a b : ℚ),
        (∃ S, pegasus cfg f a b = Except.ok S ∧ |f S| < cfg.tol) ∨
          pegasus cfg f a b = Except.error Err.NonConvergence) ∧
    pegasus cfg0 (fun x => x - 2) 0 5 = Except.ok 2 ∧
    |(2 : ℚ) - 2| < cfg0.tol := by
  refine ⟨?_, ?_, ?_⟩
  · intro cfg f a b
    rcases h : pegasus cfg f a b with S | e
    · exact Or.inr (by rw [pegasus_err cfg f a b S h])
    · exact Or.inl ⟨e, rfl, pegasus_ok cfg f a b e h⟩
  · have hb : expandBracket (fun x => x - 2) cfg0.maxExpand 0 5 = some (0, 5) :=
      expandBracket_found (fun x => x - 2) 9 0 5 (by norm_num)
    rw [pegasus_toLoop cfg0 _ 0 5 0 5 hb (by norm_num [cfg0]) (by norm_num [cfg0])]
    rw [show cfg0.maxIter = 99 + 1 from rfl]
    rw [pegasusLoop_hit (fun x => x - 2) cfg0.tol 99 0 5 (0 - 2) (5 - 2) (by norm_num [cfg0])]
    norm_num [Except.ok.injEq]
  · norm_num [cfg0]

/-- Clipping a value to the admissible state interval `[lo, hi]`. -/
def clip (lo hi x : ℚ) : ℚ := min hi (max lo x)

/-- Modelled from the spec: `ImplicitEulerPython`, the implicit numerical
approximation.  Given the state-derivative function `g`, the current state
`S0`, the timestep `dt` and the input flux values for the step, it applies
the root finder to the residual `S - S0 - dt * g S ins` between the exposed
min/max admissible state bounds `sMin`, `sMax` (which also serve as the two
initial guesses).  If the root the finder returns lies outside the admissible
bounds (the bracket expansion may leave them), the state is clipped back to
the bounds and the recoverable `BoundsViolation` warning is attached to the
result — surfaced, not silently swallowed, and distinct from the fatal
`NonConvergence`. -/
def implicitEuler (cfg : PegasusConfig) (g : ℚ → List ℚ → ℚ) (S0 dt : ℚ)
    (ins : List ℚ) (sMin sMax : ℚ) : Except Err (ℚ × Option Err) :=
  match pegasus cfg (fun S => S - S0 - dt * g S ins) sMin sMax with
  | Except.error e => Except.error e
  | Except.ok S =>
      if S < sMin ∨ sMax < S then
        Except.ok (clip sMin sMax S, some Err.BoundsViolation)
      else Except.ok (S, none)

/-- Claim C3, corrected.  As stated — every returned new state zeroes the
implicit-Euler residual `S1 - S0 - dt * g S1 ins` up to the root finder's
tolerance — the claim fails on the clip-or-resolve path of spec section 4.2:
a state clipped back into the admissible bounds need not satisfy the implicit
relation (see the counterexample below).  Amended: a state returned without a
warning zeroes the residual up to tolerance, and a state returned with a
warning is flagged exactly `BoundsViolation` and is the in-bounds clip of a
root that itself zeroes the residual up to tolerance but lies outside the
admissible bounds. -/
theorem implicit_euler_residual (cfg : PegasusConfig) (g : ℚ → List ℚ → ℚ)
    (S0 dt : ℚ) (ins : List ℚ) (sMin sMax S1 : ℚ) (w : Option Err)
    (h : implicitEuler cfg g S0 dt ins sMin sMax = Except.ok (S1, w)) :
    (w = none → |S1 - S0 - dt * g S1 ins| < cfg.tol) ∧
    (w ≠ none → w = some Err.BoundsViolation ∧
      ∃ S, pegasus cfg (fun S => S - S0 - dt * g S ins) sMin sMax = Except.ok S ∧
        |S - S0 - dt * g S ins| < cfg.tol ∧
        (S < sMin ∨ sMax < S) ∧ S1 = clip sMin sMax S) := by
  rw [implicitEuler] at h
  rcases hp : pegasus cfg (fun S => S - S0 - dt * g S ins) sMin sMax with e | S <;>
    simp only [hp] at h
  · cases h
  · split at h
    · rename_i hcond
      injection h with hpair
      rw [Prod.mk.injEq] at hpair
      obtain ⟨hS, hw⟩ := hpair
      constructor
      · intro hn
        rw [← hw] at hn
        exact Option.noConfusion hn
      · intro _
        refine ⟨hw.symm, S, rfl, ?_, hcond, hS.symm⟩
        exact pegasus_ok cfg (fun S => S - S0 - dt * g S ins) sMin sMax S hp
    · rename_i hcond
      injection h with hpair
      rw [Prod.mk.injEq] at hpair
      obtain ⟨hS, hw⟩ := hpair
      constructor
      · intro _
        rw [← hS]
        exact pegasus_ok cfg (fun S => S - S0 - dt * g S ins) sMin sMax S hp
      · intro hn
        exact absurd hw.symm hn

/-- Linear drainage derivative used as the concrete instance for the implicit
solver: the reservoir loses water at a rate equal to its storage. -/
def gLin : ℚ → List ℚ → ℚ := fun S _ => -S

theorem implicitEuler_gLin_eval :
    implicitEuler cfg0 gLin 10 1 [] 0 10 = Except.ok (5, none) := by
  have hb : expandBracket (fun S => S - 10 - 1 * gLin S []) cfg0.maxExpand 0 10
      = some (0, 10) :=
    expandBracket_found (fun S => S - 10 - 1 * gLin S []) 9 0 10 (by norm_num [gLin])
  have hp : pegasus cfg0 (fun S => S - 10 - 1 * gLin S []) 0 10 = Except.ok 5 := by
    rw [pegasus_toLoop cfg0 _ 0 10 0 10 hb (by norm_num [cfg0, gLin]) (by norm_num [cfg0, gLin])]
    rw [show cfg0.maxIter = 99 + 1 from rfl]
    rw [pegasusLoop_hit _ cfg0.tol 99 0 10 (0 - 10 - 1 * gLin 0 []) (10 - 10 - 1 * gLin 10 [])
      (by norm_num [cfg0, gLin])]
    norm_num [Except.ok.injEq, gLin]
  rw [implicitEuler]
  simp only [hp]
  rw [if_neg]
  norm_num

/-- Witness for C3: for the linear drainage reservoir with `S0 = 10`,
`dt = 1`, the solver returns `S1 = 5` with no bounds warning, and indeed
`|5 - 10 - 1 * (-5)| = 0` is below the tolerance. -/
theorem implicit_euler_residual_witness : |(5 : ℚ) - 10 - 1 * -5| < cfg0.tol :=
  (implicit_euler_residual cfg0 gLin 10 1 [] 0 10 5 none implicitEuler_gLin_eval).1 rfl

/-- Constant drainage derivative whose implicit root falls below the
admissible minimum, forcing the clip-or-resolve path. -/
def gCst : ℚ → List ℚ → ℚ := fun _ _ => -20

theorem implicitEuler_gCst_eval :
    implicitEuler cfg0 gCst 5 1 [] 0 10 = Except.ok (0, some Err.BoundsViolation) := by
  have hb : expandBracket (fun S => S - 5 - 1 * gCst S []) cfg0.maxExpand 0 10
      = some (-40, 50) := by
    rw [show cfg0.maxExpand = 9 + 1 from rfl]
    rw [expandBracket_expand _ 9 0 10 (by norm_num [gCst])]
    norm_num
    rw [show (9 : ℕ) = 8 + 1 from rfl]
    rw [expandBracket_expand _ 8 (-10) 20 (by norm_num [gCst])]
    norm_num
    rw [show (8 : ℕ) = 7 + 1 from rfl]
    exact expandBracket_found _ 7 (-40) 50 (by norm_num [gCst])
  have hp : pegasus cfg0 (fun S => S - 5 - 1 * gCst S []) 0 10 = Except.ok (-15) := by
    rw [pegasus_toLoop cfg0 _ 0 10 (-40) 50 hb (by norm_num [cfg0, gCst]) (by norm_num [cfg0, gCst])]
    rw [show cfg0.maxIter = 99 + 1 from rfl]
    rw [pegasusLoop_hit _ cfg0.tol 99 (-40) 50 ((-40 : ℚ) - 5 - 1 * gCst (-40) [])
      ((50 : ℚ) - 5 - 1 * gCst 50 []) (by norm_num [cfg0, gCst])]
    norm_num [Except.ok.injEq, gCst]
  rw [implicitEuler]
  simp only [hp]
  rw [if_pos]
  · norm_num [clip, min_def, max_def]
  · left
    norm_num

/-- Counterexample to claim C3 as stated: with constant drainage `g = -20`,
`S0 = 5`, `dt = 1` and admissible bounds `[0, 10]`, the approximation returns
the clipped state `0` (flagged `BoundsViolation`), and `0` does not satisfy
the implicit relation up to tolerance: `|0 - 5 - 1 * (-20)| = 15`. -/
theorem implicit_euler_residual_counterexample :
    implicitEuler cfg0 gCst 5 1 [] 0 10 = Except.ok (0, some Err.BoundsViolation) ∧
    ¬ |(0 : ℚ) - 5 - 1 * gCst 0 []| < cfg0.tol :=
  ⟨implicitEuler_gCst_eval, by norm_num [gCst, cfg0]⟩

/-- Modelled from the spec: the `Splitter` structural element, which partitions
input fluxes into multiple outputs via a declared weight matrix (one row of
weights per output, one entry per input).  The optional per-output index remap
("direction") is the identity in the notebook's construction and is omitted
from the model. -/
structure Splitter where
  weight : List (List ℚ)
deriving DecidableEq, Repr

/-- Number of input flux channels a weight matrix declares weights for. -/
def numInputs (w : List (List ℚ)) : ℕ :=
  (w.map List.length).foldr Nat.max 0

/-- Total weight the matrix assigns to input channel `j`, summed over the
output rows. -/
def columnSum (w : List (List ℚ)) (j : ℕ) : ℚ :=
  (w.map (fun row => row.getD j 0)).sum

/-- Modelled from the spec: the construction-time validation of a Splitter
weight matrix; each input's weights must sum to 1. -/
def validWeights (w : List (List ℚ)) : Bool :=
  (List.range (numInputs w)).all (fun j => decide (columnSum w j = 1))

/-- Modelled from the spec: Splitter construction; a weight matrix whose
per-input weights do not sum to 1 is rejected with `InvalidTopology` before
any simulation runs. -/
def mkSplitter (w : List (List ℚ)) : Except Err Splitter :=
  if validWeights w then Except.ok ⟨w⟩ else Except.error Err.InvalidTopology

/-- Modelled from the spec: one timestep of a Splitter; output `o` receives
each input flux scaled by the declared weight `weight[o][j]`. -/
def Splitter.applyStep (s : Splitter) (ins : List ℚ) : List ℚ :=
  s.weight.map (fun row => ((row.zip ins).map (fun p => p.1 * p.2)).sum)

/-- Output series of channel `o` when a Splitter is fed a single-channel flux
series, one timestep at a time. -/
def Splitter.outputSeries (s : Splitter) (input : List ℚ) (o : ℕ) : List ℚ :=
  input.map (fun x => (s.applyStep [x]).getD o 0)

/-- Claim C4: the Splitter with weight matrix `[[0.9], [0.1]]` fed the flux series
`[10, 20, 0]` is accepted at construction and produces exactly the two output
series `[9, 18, 0]` and `[1, 2, 0]`; in general, a single-input Splitter
scales the input by each output's declared weight, timestep by timestep. -/
theorem splitter_splits :
    mkSplitter [[(9 : ℚ)/10], [1/10]] = Except.ok ⟨[[(9 : ℚ)/10], [1/10]]⟩ ∧
    Splitter.outputSeries ⟨[[(9 : ℚ)/10], [1/10]]⟩ [10, 20, 0] 0 = [9, 18, 0] ∧
    Splitter.outputSeries ⟨[[(9 : ℚ)/10], [1/10]]⟩ [10, 20, 0] 1 = [1, 2, 0] ∧
    ∀ (ws : List ℚ) (x : ℚ),
      Splitter.applyStep ⟨ws.map (fun v => [v])⟩ [x] = ws.map (fun v => v * x) := by
  refine ⟨?_, ?_, ?_, ?_⟩
  · rw [mkSplitter, if_pos]
    rw [validWeights]
    norm_num [numInputs, columnSum]
  · norm_num [Splitter.outputSeries, Splitter.applyStep]
  · norm_num [Splitter.outputSeries, Splitter.applyStep]
  · intro ws x
    rw [Splitter.applyStep]
    rw [List.map_map]
    refine List.map_congr_left ?_
    intro v _
    simp

/-- Claim C5: Splitter construction succeeds exactly when every input's weights sum
to 1, and any violating weight matrix is rejected with `InvalidTopology`
before any simulation runs. -/
theorem splitter_validation (w : List (List ℚ)) :
    (mkSplitter w = Except.ok ⟨w⟩ ↔ ∀ j < numInputs w, columnSum w j = 1) ∧
    ((¬ ∀ j < numInputs w, columnSum w j = 1) →
      mkSplitter w = Except.error Err.InvalidTopology) := by
  have hv : validWeights w = true ↔ ∀ j < numInputs w, columnSum w j = 1 := by
    rw [validWeights, List.all_eq_true]
    constructor
    · intro h j hj
      exact of_decide_eq_true (h j (List.mem_range.mpr hj))
    · intro h j hj
      exact decide_eq_true (h j (List.mem_range.mp hj))
  constructor
  · constructor
    · intro h
      rw [mkSplitter] at h
      by_cases hw : validWeights w
      · exact hv.mp hw
      · rw [if_neg hw] at h
        cases h
    · intro h
      rw [mkSplitter, if_pos (hv.mpr h)]
  · intro h
    rw [mkSplitter, if_neg]
    intro hw
    exact h (hv.mp hw)

/-- Witness for C5: the GR4J weight matrix `[[0.9], [0.1]]` is accepted, while
the matrix `[[0.5], [1/3]]`, whose single input's weights sum to `5/6 ≠ 1`,
is rejected with `InvalidTopology`. -/
theorem splitter_validation_witness :
    mkSplitter [[(9 : ℚ)/10], [1/10]] = Except.ok ⟨[[(9 : ℚ)/10], [1/10]]⟩ ∧
    mkSplitter [[(1 : ℚ)/2], [1/3]] = Except.error Err.InvalidTopology := by
  constructor
  · refine (splitter_validation [[(9 : ℚ)/10], [1/10]]).1.mpr ?_
    intro j hj
    rw [show numInputs [[(9 : ℚ)/10], [1/10]] = 1 from rfl] at hj
    rw [Nat.lt_one_iff.mp hj]
    rw [columnSum]
    norm_num
  · refine (splitter_validation [[(1 : ℚ)/2], [1/3]]).2 ?_
    intro h
    have h1 := h 0 (by rw [show numInputs [[(1 : ℚ)/2], [1/3]] = 1 from rfl]; norm_num)
    rw [columnSum] at h1
    norm_num at h1

/-- Modelled from the spec: the S-curve from which a LagElement derives its
convolution kernel.  The spec fixes only its interface — the curve starts at
0, reaches 1 once `lag` timesteps have passed, and its shape and support are
derived from the lag-time parameter (`UnitHydrograph1` in the notebook); we
model it with a quadratic rise. -/
def sCurve (lag : ℚ) (t : ℕ) : ℚ :=
  if lag ≤ (t : ℚ) then 1 else ((t : ℚ) / lag) ^ 2

/-- Support length of the lag kernel: the number of whole timesteps needed to
cover the lag time. -/
def lagSupport (lag : ℚ) : ℕ := (Int.ceil lag).toNat

/-- Modelled from the spec: the LagElement's convolution kernel; weight `i` is
the S-curve mass falling into timestep `i`. -/
def lagWeights (lag : ℚ) : List ℚ :=
  (List.range (lagSupport lag)).map (fun i => sCurve lag (i + 1) - sCurve lag i)

/-- Modelled from the spec: the LagElement's emitted flux at timestep `t`, the
convolution of the kernel with the input series. -/
def lagOutput (w input : List ℚ) (t : ℕ) : ℚ :=
  ((List.range (t + 1)).map (fun j => w.getD j 0 * input.getD (t - j) 0)).sum

theorem sum_map_range_sub (h : ℕ → ℚ) (n : ℕ) :
    ((List.range n).map (fun i => h (i + 1) - h i)).sum = h n - h 0 := by
  induction n with
  | zero => simp
  | succ n ih =>
      rw [List.range_succ, List.map_append, List.sum_append, ih]
      simp only [List.map_cons, List.map_nil, List.sum_cons, List.sum_nil]
      ring

theorem lagWeights_sum (lag : ℚ) (h : 0 < lag) : (lagWeights lag).sum = 1 := by
  rw [lagWeights, sum_map_range_sub]
  have h0 : sCurve lag 0 = 0 := by
    rw [sCurve, if_neg]
    · norm_num
    · push_cast
      linarith
  have hs : sCurve lag (lagSupport lag) = 1 := by
    rw [sCurve, if_pos]
    rw [lagSupport]
    have h1 : (0 : ℤ) ≤ Int.ceil lag := le_of_lt (Int.ceil_pos.mpr h)
    have h2 : ((Int.ceil lag).toNat : ℚ) = ((Int.ceil lag : ℤ) : ℚ) := by
      exact_mod_cast congrArg (fun z => ((z : ℤ) : ℚ)) (Int.toNat_of_nonneg h1)
    rw [h2]
    exact_mod_cast Int.le_ceil lag
  rw [h0, hs]
  ring

theorem lagOutput_impulse (w : List ℚ) (t : ℕ) : lagOutput w [1] t = w.getD t 0 := by
  rw [lagOutput, List.range_succ, List.map_append, List.sum_append]
  have h1 : ((List.range t).map (fun j => w.getD j 0 * List.getD [1] (t - j) 0)).sum = 0 := by
    apply List.sum_eq_zero
    intro x hx
    rcases List.mem_map.mp hx with ⟨j, hj, rfl⟩
    have hj1 : j < t := List.mem_range.mp hj
    rcases Nat.exists_eq_succ_of_ne_zero (Nat.sub_ne_zero_of_lt hj1) with ⟨k, hk⟩
    rw [hk]
    simp
  rw [h1]
  simp

theorem sum_getD_range (w : List ℚ) :
    ((List.range w.length).map (fun t => w.getD t 0)).sum = w.sum := by
  induction w with
  | nil => simp
  | cons x xs ih =>
      rw [List.length_cons, List.range_succ_eq_map, List.map_cons, List.map_map]
      rw [List.getD_cons_zero, List.sum_cons]
      have hmap : (List.range xs.length).map ((fun t => List.getD (x :: xs) t 0) ∘ Nat.succ)
          = (List.range xs.length).map (fun t => xs.getD t 0) := by
        refine List.map_congr_left ?_
        intro i _
        simp
      rw [hmap, ih]
      exact List.sum_cons.symm

/-- Claim C6: for every valid (positive) lag-time the LagElement's kernel weights
sum to 1; consequently a unit impulse at timestep 0 is emitted as exactly the
kernel weights, the emitted series sums to exactly 1 over the kernel support,
and nothing is emitted at any timestep whose kernel weight is zero (in
particular before the kernel's first nonzero weight). -/
theorem lag_kernel_mass (lag : ℚ) (h : 0 < lag) :
    (lagWeights lag).sum = 1 ∧
    (∀ t, lagOutput (lagWeights lag) [1] t = (lagWeights lag).getD t 0) ∧
    ((List.range (lagWeights lag).length).map
      (fun t => lagOutput (lagWeights lag) [1] t)).sum = 1 ∧
    (∀ t, (lagWeights lag).getD t 0 = 0 → lagOutput (lagWeights lag) [1] t = 0) := by
  refine ⟨lagWeights_sum lag h, fun t => lagOutput_impulse _ t, ?_, ?_⟩
  · have hmap : (List.range (lagWeights lag).length).map
        (fun t => lagOutput (lagWeights lag) [1] t)
        = (List.range (lagWeights lag).length).map (fun t => (lagWeights lag).getD t 0) := by
      refine List.map_congr_left ?_
      intro t _
      exact lagOutput_impulse _ t
    rw [hmap, sum_getD_range, lagWeights_sum lag h]
  · intro t h0
    rw [lagOutput_impulse, h0]

/-- Witness for C6: for lag-time 2 the kernel weights sum to 1 and the unit
impulse is fully re-emitted over the kernel support. -/
theorem lag_kernel_mass_witness :
    (lagWeights 2).sum = 1 ∧
    ((List.range (lagWeights 2).length).map
      (fun t => lagOutput (lagWeights 2) [1] t)).sum = 1 :=
  ⟨(lag_kernel_mass 2 (by norm_num)).1, (lag_kernel_mass 2 (by norm_num)).2.2.1⟩

/-- Modelled from the spec: the time-invariant data of a ReservoirElement —
the declared initial state `S0`, the state-transition map produced by the
implicit numerical approximation (one committed new state per timestep from
the previous state and the step's input flux), and the output flux evaluated
at the committed state. -/
structure ResElement where
  S0 : ℚ
  newState : ℚ → ℚ → ℚ
  outFlux : ℚ → ℚ → ℚ

/-- Modelled from the spec: the mutable runtime bookkeeping of an element —
the assigned input series, the historical sequence of state values, and the
cached output of the last computation. -/
structure ResRuntime where
  input : List ℚ
  history : List ℚ
  cache : Option (List ℚ)
deriving DecidableEq, Repr

/-- Modelled from the spec: `set_input(fluxes)` assigns the forcing series. -/
def set_input (ins : List ℚ) (rt : ResRuntime) : ResRuntime :=
  { rt with input := ins }

/-- Modelled from the spec: `reset_state()` restores the state history to the
originally declared initial value and drops any cached output. -/
def reset_state (e : ResElement) (rt : ResRuntime) : ResRuntime :=
  { rt with history := [e.S0], cache := none }

/-- Modelled from the spec: the Unit-level `reset_states()`, which resets
every element it owns. -/
def reset_states (es : List (ResElement × ResRuntime)) : List (ResElement × ResRuntime) :=
  es.map (fun p => (p.1, reset_state p.1 p.2))

/-- State trajectory of a sequential run: the value before step 0 followed by
the committed value after each step. -/
def runStates (f : ℚ → ℚ → ℚ) (s : ℚ) : List ℚ → List ℚ
  | [] => [s]
  | x :: xs => s :: runStates f (f s x) xs

/-- Output flux series of a sequential run, one value per input timestep,
each evaluated at the committed new state of its step. -/
def runOutputs (e : ResElement) (s : ℚ) : List ℚ → List ℚ
  | [] => []
  | x :: xs => e.outFlux (e.newState s x) x :: runOutputs e (e.newState s x) xs

/-- Modelled from the spec: `get_output(solve)` — with `solve = false` it
returns the previously computed cached output without recomputation and
without mutating any state; with `solve = true` it advances the element over
its assigned input series from the last committed state (continuation
semantics), appends the new states to the history and caches the outputs. -/
def get_output (e : ResElement) (solve : Bool) (rt : ResRuntime) : ResRuntime × List ℚ :=
  if solve then
    let s := rt.history.getLastD e.S0
    let outs := runOutputs e s rt.input
    let hist := rt.history ++ (runStates e.newState s rt.input).tail
    ({ rt with history := hist, cache := some outs }, outs)
  else (rt, rt.cache.getD [])

/-- Modelled from the spec: `get_state_array()` exposes the full historical
sequence of state values. -/
def state_array (rt : ResRuntime) : List ℚ := rt.history

/-- A fresh run: reset, assign the input series, then solve. -/
def freshRun (e : ResElement) (ins : List ℚ) (rt : ResRuntime) : ResRuntime :=
  (get_output e true (set_input ins (reset_state e rt))).1

theorem runStates_eq_cons (f : ℚ → ℚ → ℚ) (s : ℚ) (xs : List ℚ) :
    runStates f s xs = s :: (runStates f s xs).tail := by
  cases xs <;> rfl

theorem runStates_length (f : ℚ → ℚ → ℚ) :
    ∀ (xs : List ℚ) (s : ℚ), (runStates f s xs).length = xs.length + 1 := by
  intro xs
  induction xs with
  | nil => intro s; rfl
  | cons x xs ih =>
      intro s
      rw [runStates, List.length_cons, ih, List.length_cons]

theorem runStates_getD_zero (f : ℚ → ℚ → ℚ) (s : ℚ) (xs : List ℚ) :
    (runStates f s xs).getD 0 0 = s := by
  cases xs <;> rfl

theorem runStates_getD (f : ℚ → ℚ → ℚ) :
    ∀ (xs : List ℚ) (s : ℚ) (k : ℕ), k < xs.length →
      (runStates f s xs).getD (k + 1) 0
        = f ((runStates f s xs).getD k 0) (xs.getD k 0) := by
  intro xs
  induction xs with
  | nil => intro s k hk; cases hk
  | cons x xs ih =>
      intro s k hk
      cases k with
      | zero =>
          rw [runStates]
          rw [List.getD_cons_succ, List.getD_cons_zero, List.getD_cons_zero]
          rw [runStates_getD_zero]
      | succ k =>
          rw [runStates]
          rw [List.getD_cons_succ, List.getD_cons_succ, List.getD_cons_succ]
          exact ih (f s x) k (Nat.lt_of_succ_lt_succ hk)

theorem runOutputs_length (e : ResElement) :
    ∀ (xs : List ℚ) (s : ℚ), (runOutputs e s xs).length = xs.length := by
  intro xs
  induction xs with
  | nil => intro s; rfl
  | cons x xs ih =>
      intro s
      rw [runOutputs, List.length_cons, ih, List.length_cons]

theorem freshRun_history (e : ResElement) (ins : List ℚ) (rt : ResRuntime) :
    state_array (freshRun e ins rt) = runStates e.newState e.S0 ins := by
  show [e.S0] ++ (runStates e.newState e.S0 ins).tail = runStates e.newState e.S0 ins
  rw [List.singleton_append]
  exact (runStates_eq_cons e.newState e.S0 ins).symm

/-- Claim C7: after the reset operation (`reset_state` on one element, or the
Unit-level `reset_states`), and regardless of any prior runs recorded in the
runtime, the first entry of the state array is the originally declared
initial state value. -/
theorem reset_restores (e : ResElement) (rt : ResRuntime)
    (es : List (ResElement × ResRuntime)) :
    (state_array (reset_state e rt)).getD 0 0 = e.S0 ∧
    ∀ p ∈ reset_states es, (state_array p.2).getD 0 0 = p.1.S0 := by
  constructor
  · rfl
  · intro p hp
    rcases List.mem_map.mp hp with ⟨q, _, rfl⟩
    rfl

/-- GR4J-style production store data: the notebook declares `S0 = 10.0`. -/
def prodStore : ResElement :=
  { S0 := 10, newState := fun s x => s + x, outFlux := fun s _ => s }

/-- An arbitrary prior runtime used by the concrete instances. -/
def rt0 : ResRuntime := { input := [], history := [10], cache := none }

/-- Witness for C7: after a full prior run on the production-store data,
resetting restores the first state entry to the declared `S0 = 10`. -/
theorem reset_restores_witness :
    (state_array (reset_state prodStore (freshRun prodStore [1, 2] rt0))).getD 0 0 = 10 :=
  (reset_restores prodStore (freshRun prodStore [1, 2] rt0) []).1

/-- Claim C8: `get_output(solve := false)` returns the cached output without
mutating the runtime, so two consecutive inspections return identical
results; after a solving call, the inspection returns exactly the output the
solve computed. -/
theorem inspect_idempotent (e : ResElement) (rt : ResRuntime) :
    (get_output e false rt).1 = rt ∧
    (get_output e false rt).2 = rt.cache.getD [] ∧
    (get_output e false ((get_output e false rt).1)).2 = (get_output e false rt).2 ∧
    (get_output e true rt).1.cache = some ((get_output e true rt).2) ∧
    (get_output e false ((get_output e true rt).1)).2 = (get_output e true rt).2 := by
  refine ⟨?_, ?_, ?_, ?_, ?_⟩ <;> rfl

/-- Claim C9: for an input series of length `T`, a fresh run stores a state
sequence of length `T + 1`: the declared initial value before step 0,
followed by the committed value after each of the `T` steps (each obtained
from its predecessor by the state-transition map). -/
theorem state_history_shape (e : ResElement) (ins : List ℚ) (rt : ResRuntime) :
    (state_array (freshRun e ins rt)).length = ins.length + 1 ∧
    (state_array (freshRun e ins rt)).getD 0 0 = e.S0 ∧
    ∀ k < ins.length,
      (state_array (freshRun e ins rt)).getD (k + 1) 0
        = e.newState ((state_array (freshRun e ins rt)).getD k 0) (ins.getD k 0) := by
  rw [freshRun_history]
  exact ⟨runStates_length e.newState ins e.S0,
    runStates_getD_zero e.newState e.S0 ins,
    fun k hk => runStates_getD e.newState ins e.S0 k hk⟩

/-- Witness for C9: the production store run on the two-step series `[1, 2]`
stores three state values, and the value after step 2 is obtained from the
value after step 1 by the transition map. -/
theorem state_history_shape_witness :
    (state_array (freshRun prodStore [1, 2] rt0)).length = 2 + 1 ∧
    (state_array (freshRun prodStore [1, 2] rt0)).getD 2 0
      = prodStore.newState ((state_array (freshRun prodStore [1, 2] rt0)).getD 1 0)
          ([(1 : ℚ), 2].getD 1 0) :=
  ⟨(state_history_shape prodStore [1, 2] rt0).1,
   (state_history_shape prodStore [1, 2] rt0).2.2 1 (by norm_num)⟩

/-- Claim C10: `get_output(solve := true)` returns one output value per input
timestep: the output series has exactly the length of the assigned input
series, so outputs index against the same time axis as the forcing. -/
theorem output_series_length (e : ResElement) (ins : List ℚ) (rt : ResRuntime) :
    ((get_output e true (set_input ins rt)).2).length = ins.length := by
  show (runOutputs e (rt.history.getLastD e.S0) ins).length = ins.length
  exact runOutputs_length e ins _

/-- Modelled from the spec: an element as seen by the Unit execution graph —
it consumes a declared number of input flux channels and, per timestep, maps
its state vector and input chunk to a new state vector, output fluxes and a
declared loss term (e.g. the production store's evapotranspiration; 0 for
loss-free elements).  A reservoir's state vector is a singleton, a lag
element's is its in-transit memory buffer, structural elements carry an empty
state. -/
structure MElement where
  numIn : ℕ
  step : List ℚ → List ℚ → List ℚ × List ℚ × ℚ

/-- Per-step mass balance of one element, within tolerance `ε`: input mass
equals output mass plus the change of stored mass plus the declared loss, up
to `ε` (the implicit solver closes the balance only up to the root-finder
tolerance). -/
def Conserves (ε : ℚ) (e : MElement) : Prop :=
  ∀ s ins, |ins.sum - (e.step s ins).2.1.sum
    - ((e.step s ins).1.sum - s.sum) - (e.step s ins).2.2| ≤ ε

/-- Modelled from the spec: one timestep of one layer.  Each element consumes
its chunk of the incoming flux vector in order; the layer emits the
concatenated outputs and accumulates the declared losses.  Leftover inputs or
states (which a width-validated Unit never produces) pass through untouched. -/
def layerStep : List MElement → List (List ℚ) → List ℚ → List (List ℚ) × List ℚ × ℚ
  | [], ss, ins => (ss, ins, 0)
  | e :: es, ss, ins =>
      ((e.step (ss.headD []) (ins.take e.numIn)).1 :: (layerStep es ss.tail (ins.drop e.numIn)).1,
       (e.step (ss.headD []) (ins.take e.numIn)).2.1 ++ (layerStep es ss.tail (ins.drop e.numIn)).2.1,
       (e.step (ss.headD []) (ins.take e.numIn)).2.2 + (layerStep es ss.tail (ins.drop e.numIn)).2.2)

/-- Modelled from the spec: one timestep of the whole Unit — the forcing
vector is pushed through each layer in order, and the last layer's output is
the Unit's reported output for the step. -/
def unitStep : List (List MElement) → List (List (List ℚ)) → List ℚ →
    List (List (List ℚ)) × List ℚ × ℚ
  | [], sts, ins => (sts, ins, 0)
  | layer :: layers, sts, ins =>
      ((layerStep layer (sts.headD []) ins).1
          :: (unitStep layers sts.tail (layerStep layer (sts.headD []) ins).2.1).1,
       (unitStep layers sts.tail (layerStep layer (sts.headD []) ins).2.1).2.1,
       (layerStep layer (sts.headD []) ins).2.2
          + (unitStep layers sts.tail (layerStep layer (sts.headD []) ins).2.1).2.2)

/-- Modelled from the spec: a full run — the timestep loop over the input
series, threading the committed states, collecting one output vector per
timestep and accumulating losses. -/
def unitRun (u : List (List MElement)) :
    List (List (List ℚ)) → List (List ℚ) → List (List (List ℚ)) × List (List ℚ) × ℚ
  | sts, [] => (sts, [], 0)
  | sts, ins :: rest =>
      ((unitRun u (unitStep u sts ins).1 rest).1,
       (unitStep u sts ins).2.1 :: (unitRun u (unitStep u sts ins).1 rest).2.1,
       (unitStep u sts ins).2.2 + (unitRun u (unitStep u sts ins).1 rest).2.2)

/-- Stored mass of one layer's states: reservoir storages plus lag buffers'
resident mass. -/
def layerMass (ss : List (List ℚ)) : ℚ := (ss.map List.sum).sum

/-- Stored mass of the whole Unit's states. -/
def unitMass (sts : List (List (List ℚ))) : ℚ := (sts.map layerMass).sum

/-- Total flux mass of a series of flux vectors. -/
def totalFlux (xs : List (List ℚ)) : ℚ := (xs.map List.sum).sum

theorem layerMass_head (ss : List (List ℚ)) :
    layerMass ss = (ss.headD []).sum + layerMass ss.tail := by
  cases ss <;> simp [layerMass]

theorem unitMass_head (sts : List (List (List ℚ))) :
    unitMass sts = layerMass (sts.headD []) + unitMass sts.tail := by
  cases sts <;> simp [unitMass, layerMass]

theorem layerStep_mass (ε : ℚ) :
    ∀ (layer : List MElement) (ss : List (List ℚ)) (ins : List ℚ),
      (∀ e ∈ layer, Conserves ε e) →
      |ins.sum - (layerStep layer ss ins).2.1.sum
        - (layerMass (layerStep layer ss ins).1 - layerMass ss)
        - (layerStep layer ss ins).2.2| ≤ (layer.length : ℚ) * ε := by
  intro layer
  induction layer with
  | nil =>
      intro ss ins _
      rw [layerStep]
      have h0 : ins.sum - ins.sum - (layerMass ss - layerMass ss) - 0 = 0 := by ring
      rw [h0]
      simp
  | cons e es ih =>
      intro ss ins hcons
      rw [layerStep]
      have hA := hcons e (List.mem_cons_self e es) (ss.headD []) (ins.take e.numIn)
      have hB := ih ss.tail (ins.drop e.numIn)
        (fun e1 he1 => hcons e1 (List.mem_cons_of_mem e he1))
      have hsplit : ins.sum = (ins.take e.numIn).sum + (ins.drop e.numIn).sum := by
        rw [List.sum_take_add_sum_drop]
      have hmass : layerMass ((e.step (ss.headD []) (ins.take e.numIn)).1
          :: (layerStep es ss.tail (ins.drop e.numIn)).1)
          = (e.step (ss.headD []) (ins.take e.numIn)).1.sum
            + layerMass (layerStep es ss.tail (ins.drop e.numIn)).1 := by
        simp [layerMass]
      have hout : ((e.step (ss.headD []) (ins.take e.numIn)).2.1
          ++ (layerStep es ss.tail (ins.drop e.numIn)).2.1).sum
          = (e.step (ss.headD []) (ins.take e.numIn)).2.1.sum
            + (layerStep es ss.tail (ins.drop e.numIn)).2.1.sum := List.sum_append
      have hδ : ins.sum - ((e.step (ss.headD []) (ins.take e.numIn)).2.1
            ++ (layerStep es ss.tail (ins.drop e.numIn)).2.1).sum
          - (layerMass ((e.step (ss.headD []) (ins.take e.numIn)).1
              :: (layerStep es ss.tail (ins.drop e.numIn)).1) - layerMass ss)
          - ((e.step (ss.headD []) (ins.take e.numIn)).2.2
              + (layerStep es ss.tail (ins.drop e.numIn)).2.2)
          = ((ins.take e.numIn).sum - (e.step (ss.headD []) (ins.take e.numIn)).2.1.sum
              - ((e.step (ss.headD []) (ins.take e.numIn)).1.sum - (ss.headD []).sum)
              - (e.step (ss.headD []) (ins.take e.numIn)).2.2)
            + ((ins.drop e.numIn).sum - (layerStep es ss.tail (ins.drop e.numIn)).2.1.sum
              - (layerMass (layerStep es ss.tail (ins.drop e.numIn)).1
                  - layerMass ss.tail)
              - (layerStep es ss.tail (ins.drop e.numIn)).2.2) := by
        rw [hmass, hout, layerMass_head ss, hsplit]
        ring
      rw [hδ]
      calc |_ + _| ≤ _ + _ := abs_add _ _
        _ ≤ ε + (es.length : ℚ) * ε := add_le_add hA hB
        _ = ((e :: es).length : ℚ) * ε := by
            rw [List.length_cons]
            push_cast
            ring

theorem unitStep_mass (ε : ℚ) :
    ∀ (u : List (List MElement)) (sts : List (List (List ℚ))) (ins : List ℚ),
      (∀ layer ∈ u, ∀ e ∈ layer, Conserves ε e) →
      |ins.sum - (unitStep u sts ins).2.1.sum
        - (unitMass (unitStep u sts ins).1 - unitMass sts)
        - (unitStep u sts ins).2.2| ≤ (((u.map List.length).sum : ℕ) : ℚ) * ε := by
  intro u
  induction u with
  | nil =>
      intro sts ins _
      rw [unitStep]
      have h0 : ins.sum - ins.sum - (unitMass sts - unitMass sts) - 0 = 0 := by ring
      rw [h0]
      simp
  | cons layer layers ih =>
      intro sts ins hcons
      rw [unitStep]
      have hA := layerStep_mass ε layer (sts.headD []) ins
        (hcons layer (List.mem_cons_self layer layers))
      have hB := ih sts.tail (layerStep layer (sts.headD []) ins).2.1
        (fun l hl => hcons l (List.mem_cons_of_mem layer hl))
      have hmass : unitMass ((layerStep layer (sts.headD []) ins).1
          :: (unitStep layers sts.tail (layerStep layer (sts.headD []) ins).2.1).1)
          = layerMass (layerStep layer (sts.headD []) ins).1
            + unitMass (unitStep layers sts.tail
                (layerStep layer (sts.headD []) ins).2.1).1 := by
        simp [unitMass]
      have hδ : ins.sum
          - (unitStep layers sts.tail (layerStep layer (sts.headD []) ins).2.1).2.1.sum
          - (unitMass ((layerStep layer (sts.headD []) ins).1
              :: (unitStep layers sts.tail (layerStep layer (sts.headD []) ins).2.1).1)
            - unitMass sts)
          - ((layerStep layer (sts.headD []) ins).2.2
              + (unitStep layers sts.tail (layerStep layer (sts.headD []) ins).2.1).2.2)
          = (ins.sum - (layerStep layer (sts.headD []) ins).2.1.sum
              - (layerMass (layerStep layer (sts.headD []) ins).1
                  - layerMass (sts.headD []))
              - (layerStep layer (sts.headD []) ins).2.2)
            + ((layerStep layer (sts.headD []) ins).2.1.sum
              - (unitStep layers sts.tail (layerStep layer (sts.headD []) ins).2.1).2.1.sum
              - (unitMass (unitStep layers sts.tail
                    (layerStep layer (sts.headD []) ins).2.1).1 - unitMass sts.tail)
              - (unitStep layers sts.tail (layerStep layer (sts.headD []) ins).2.1).2.2) := by
        rw [hmass, unitMass_head sts]
        ring
      rw [hδ]
      calc |_ + _| ≤ _ + _ := abs_add _ _
        _ ≤ (layer.length : ℚ) * ε + (((layers.map List.length).sum : ℕ) : ℚ) * ε :=
            add_le_add hA hB
        _ = ((((layer :: layers).map List.length).sum : ℕ) : ℚ) * ε := by
            rw [List.map_cons, List.sum_cons]
            push_cast
            ring

theorem unitRun_mass (ε : ℚ) (u : List (List MElement))
    (hcons : ∀ layer ∈ u, ∀ e ∈ layer, Conserves ε e) :
    ∀ (inputs : List (List ℚ)) (sts : List (List (List ℚ))),
      |totalFlux inputs - totalFlux (unitRun u sts inputs).2.1
        - (unitMass (unitRun u sts inputs).1 - unitMass sts)
        - (unitRun u sts inputs).2.2|
        ≤ (inputs.length : ℚ) * (((u.map List.length).sum : ℕ) : ℚ) * ε := by
  intro inputs
  induction inputs with
  | nil =>
      intro sts
      rw [unitRun]
      have h0 : totalFlux [] - totalFlux [] - (unitMass sts - unitMass sts) - 0 = 0 := by
        ring
      rw [h0]
      simp
  | cons ins rest ih =>
      intro sts
      rw [unitRun]
      have hA := unitStep_mass ε u sts ins hcons
      have hB := ih (unitStep u sts ins).1
      have hin : totalFlux (ins :: rest) = ins.sum + totalFlux rest := by
        simp [totalFlux]
      have hout : totalFlux ((unitStep u sts ins).2.1
          :: (unitRun u (unitStep u sts ins).1 rest).2.1)
          = (unitStep u sts ins).2.1.sum
            + totalFlux (unitRun u (unitStep u sts ins).1 rest).2.1 := by
        simp [totalFlux]
      have hδ : totalFlux (ins :: rest)
          - totalFlux ((unitStep u sts ins).2.1
              :: (unitRun u (unitStep u sts ins).1 rest).2.1)
          - (unitMass (unitRun u (unitStep u sts ins).1 rest).1 - unitMass sts)
          - ((unitStep u sts ins).2.2 + (unitRun u (unitStep u sts ins).1 rest).2.2)
          = (ins.sum - (unitStep u sts ins).2.1.sum
              - (unitMass (unitStep u sts ins).1 - unitMass sts)
              - (unitStep u sts ins).2.2)
            + (totalFlux rest - totalFlux (unitRun u (unitStep u sts ins).1 rest).2.1
              - (unitMass (unitRun u (unitStep u sts ins).1 rest).1
                  - unitMass (unitStep u sts ins).1)
              - (unitRun u (unitStep u sts ins).1 rest).2.2) := by
        rw [hin, hout]
        ring
      rw [hδ]
      calc |_ + _| ≤ _ + _ := abs_add _ _
        _ ≤ (((u.map List.length).sum : ℕ) : ℚ) * ε
            + (rest.length : ℚ) * (((u.map List.length).sum : ℕ) : ℚ) * ε :=
            add_le_add hA hB
        _ = ((ins :: rest).length : ℚ) * (((u.map List.length).sum : ℕ) : ℚ) * ε := by
            rw [List.length_cons]
            push_cast
            ring

/-- Claim C1: mass conservation of a Unit run.  If every element of every layer
closes its per-step mass balance within `ε` (exactly, `ε = 0`, for
structural, lag and loss-free elements; within the solver tolerance for
reservoirs), then over a run of `T` timesteps the total input flux equals the
total output flux plus the net change of every reservoir's state and every
lag buffer's resident mass plus the declared losses (e.g. the production
store's evapotranspiration), within the accumulated numerical tolerance
`T * N * ε`, where `N` is the number of elements.  For a Unit with no
declared loss element every loss term is 0 and the plain balance holds;
with declared losses the balance holds once they are added back. -/
theorem unit_mass_conservation (u : List (List MElement)) (sts : List (List (List ℚ)))
    (inputs : List (List ℚ)) (ε : ℚ)
    (hcons : ∀ layer ∈ u, ∀ e ∈ layer, Conserves ε e) :
    |totalFlux inputs - totalFlux (unitRun u sts inputs).2.1
      - (unitMass (unitRun u sts inputs).1 - unitMass sts)
      - (unitRun u sts inputs).2.2|
      ≤ (inputs.length : ℚ) * (((u.map List.length).sum : ℕ) : ℚ) * ε :=
  unitRun_mass ε u hcons inputs sts

/-- The Transparent structural element: a loss-free, state-free identity
pass-through, which conserves mass exactly. -/
def transparentM : MElement := { numIn := 1, step := fun s ins => (s, ins, 0) }

/-- Witness for C1: a one-layer Unit holding a Transparent element, run for
two timesteps on the fluxes 3 and 4 from a stored state of 5, balances its
mass exactly. -/
theorem unit_mass_conservation_witness :
    |totalFlux [[(3 : ℚ)], [4]]
      - totalFlux (unitRun [[transparentM]] [[[(5 : ℚ)]]] [[3], [4]]).2.1
      - (unitMass (unitRun [[transparentM]] [[[(5 : ℚ)]]] [[3], [4]]).1
          - unitMass [[[(5 : ℚ)]]])
      - (unitRun [[transparentM]] [[[(5 : ℚ)]]] [[3], [4]]).2.2|
      ≤ (([[(3 : ℚ)], [4]] : List (List ℚ)).length : ℚ)
        * ((([[transparentM]].map List.length).sum : ℕ) : ℚ) * 0 := by
  refine unit_mass_conservation [[transparentM]] [[[(5 : ℚ)]]] [[3], [4]] 0 ?_
  intro layer hl e he
  rw [List.mem_singleton] at hl
  subst hl
  rw [List.mem_singleton] at he
  subst he
  intro s ins
  simp [transparentM]
